import Mathlib

/-!
Verification of the crawl engine in `src/app/api/analyze/route.ts` of the
`dag-bag/seo-tool` repository.

Modelling conventions:
* JavaScript strings are embedded as `List Char` (`JStr`); the JS string
  operations used by the source (`startsWith`, `endsWith`, `split(c)[0]`,
  `slice(0,-1)`, `includes`, `toLowerCase`, concatenation) become the
  corresponding list operations.
* The WHATWG `new URL` constructor is abstracted by `parseURL`, which keeps
  exactly the observations the source makes: `.protocol` (lowercased scheme
  plus `":"`), `.host` (lowercased authority up to the first `/`, `?` or `#`)
  and `.pathname` (the path component, `"/"` when absent).  Percent-encoding,
  dot-segment removal and IDNA are not modelled; no claim depends on them.
* The network is a deterministic oracle `net : JStr → FetchResult`; a thrown
  `fetch` (transport failure or unparseable URL, both land in the same
  `catch`) is `FetchResult.failure`.
* The cheerio document is abstracted as a flat list of elements, each with a
  tag, an attribute list and a text content.
-/

set_option maxHeartbeats 1000000
set_option maxRecDepth 4000

/-- A JavaScript string, embedded as its list of characters. -/
abbrev JStr := List Char

/-- Shorthand for embedding a Lean string literal as a `JStr`. -/
def lit (s : String) : JStr := s.toList

/-- The observations the source makes on a parsed WHATWG URL object:
`urlObj.protocol`, `urlObj.host` and `urlObj.pathname`. -/
structure URLParts where
  protocol : JStr
  host : JStr
  pathname : JStr
deriving DecidableEq, Repr

/-- Characters allowed in a URL scheme (WHATWG: ASCII alphanumeric, `+`,
`-`, `.`).  In particular `:`, `/`, `?` and `#` are excluded. -/
def isSchemeChar (c : Char) : Bool := c.isAlphanum || c = '+' || c = '-' || c = '.'

/-- A character that terminates the authority (host) component. -/
def isHostStop (c : Char) : Bool := c = '/' || c = '?' || c = '#'

/-- Split a list at the first occurrence of `c`: returns the part before and
the part after (the occurrence itself removed), or `none` when `c` is absent. -/
def splitFirst (c : Char) : JStr → Option (JStr × JStr)
  | [] => none
  | x :: xs => if x = c then some ([], xs) else (splitFirst c xs).map (fun p => (x :: p.1, p.2))

/-- Model of `new URL(s)` restricted to the fields the source reads.
Succeeds on `scheme "://" host rest` with a nonempty well-formed scheme and a
nonempty host; `none` models the constructor throwing. -/
def parseURL (s : JStr) : Option URLParts :=
  match splitFirst ':' s with
  | none => none
  | some (scheme, rest) =>
    if scheme = [] || !(scheme.all isSchemeChar) then none
    else
      match rest with
      | d1 :: d2 :: rest' =>
        if d1 = '/' ∧ d2 = '/' then
          let hostRaw := rest'.takeWhile (fun c => !isHostStop c)
          let after := rest'.dropWhile (fun c => !isHostStop c)
          if hostRaw = [] then none
          else
            let p := after.takeWhile (fun c => !(c = '?' || c = '#'))
            some { protocol := scheme.map Char.toLower ++ [':'],
                   host := hostRaw.map Char.toLower,
                   pathname := if p = [] then ['/'] else p }
        else none
      | _ => none

/-- The directory part of a pathname: everything up to and including the last
`/`, mirroring `pathname.substring(0, pathname.lastIndexOf("/") + 1)`. -/
def upToLastSlash (l : JStr) : JStr := (l.reverse.dropWhile (fun c => c ≠ '/')).reverse

/-- Resolution of one `href` to an absolute URL string, mirroring the
`fullUrl` computation inside the `$("a[href]").each` callback of
`extractUrls` (route.ts lines 234-251).  `none` models hitting the bare
`return` or a thrown `new URL` caught by the per-link `catch`. -/
def resolveHref (baseUrl pageUrl href : JStr) : Option JStr :=
  if (lit "http").isPrefixOf href then
    some href
  else if href.head? = some '/' then
    match parseURL baseUrl with
    | none => none
    | some b => some (b.protocol ++ lit "//" ++ b.host ++ href)
  else if ¬ href.head? = some '#' ∧ ¬ (lit "javascript:").isPrefixOf href ∧
      ¬ (lit "mailto:").isPrefixOf href then
    match parseURL pageUrl with
    | none => none
    | some u =>
      let path := if u.pathname.getLast? = some '/' then u.pathname
                  else upToLastSlash u.pathname
      some (u.protocol ++ lit "//" ++ u.host ++ path ++ href)
  else none

/-- The query/fragment stripping step `fullUrl.split("#")[0].split("?")[0]`. -/
def stripFragQuery (s : JStr) : JStr :=
  (s.takeWhile (fun c => c ≠ '#')).takeWhile (fun c => c ≠ '?')

/-- The trailing-slash step of the source (route.ts lines 262-264): drop a
trailing `/` unless the URL, slash included, is exactly `baseUrl`. -/
def stripTrailingSlash (baseUrl s : JStr) : JStr :=
  if s.getLast? = some '/' ∧ s ≠ baseUrl then s.dropLast else s

/-- Resolution plus host check plus query/fragment stripping: the per-link
processing of `extractUrls` up to (but excluding) the trailing-slash step.
`none` models a skipped link (empty href, rejected shape, unparseable URL, or
host differing from the seed's). -/
def preNormalize (baseUrl pageUrl href : JStr) : Option JStr :=
  if href = [] then none
  else
    match resolveHref baseUrl pageUrl href with
    | none => none
    | some fullUrl =>
      match parseURL fullUrl, parseURL baseUrl with
      | some u, some b => if u.host = b.host then some (stripFragQuery fullUrl) else none
      | _, _ => none

/-- The complete per-link normalization performed by `extractUrls`: resolve,
same-host filter, strip query/fragment, strip trailing slash. -/
def normalizeHref (baseUrl pageUrl href : JStr) : Option JStr :=
  (preNormalize baseUrl pageUrl href).map (stripTrailingSlash baseUrl)

/-- JavaScript `s.includes(pat)`: whether `pat` occurs as a contiguous
substring of `s`. -/
def jsIncludes (pat : JStr) : JStr → Bool
  | [] => pat.isEmpty
  | c :: rest => pat.isPrefixOf (c :: rest) || jsIncludes pat rest

/-- One element of the (flattened) cheerio document: tag name, attribute
list, and the element's text content. -/
structure Element where
  tag : JStr
  attrs : List (JStr × JStr)
  text : JStr
deriving DecidableEq, Repr

/-- A fetched HTML document, abstracted as the flat list of its elements. -/
abbrev Html := List Element

/-- Outcome of one `fetch(url)` call: either the promise rejects (transport
failure, or an unparseable URL — both end in the same `catch`), or a response
with a status, a `content-type` header value, and a body document. -/
inductive FetchResult where
  | failure
  | response (status : Nat) (contentType : JStr) (body : Html)
deriving DecidableEq

/-- `response.ok`: status in the 2xx range. -/
def responseOk (status : Nat) : Bool := 200 ≤ status && status ≤ 299

/-- The `SeoData` record of route.ts (one `PageRecord` per visited URL). -/
structure SeoData where
  url : JStr
  statusCode : Nat
  title : JStr
  metaDescription : JStr
  canonical : JStr
  h1 : JStr
  h2Count : Nat
  imgCount : Nat
  imgWithAlt : Nat
  wordCount : Nat
deriving DecidableEq, Repr

/-- The record with empty metadata fields, as built at route.ts lines 135-146
and 183-194: only `url` and `statusCode` are populated. -/
def emptySeoData (url : JStr) (statusCode : Nat) : SeoData :=
  { url := url, statusCode := statusCode, title := [], metaDescription := [],
    canonical := [], h1 := [], h2Count := 0, imgCount := 0, imgWithAlt := 0,
    wordCount := 0 }

/-- JavaScript `String.prototype.trim`. -/
def jsTrim (l : JStr) : JStr :=
  ((l.dropWhile Char.isWhitespace).reverse.dropWhile Char.isWhitespace).reverse

/-- `bodyText.split(/\s+/).filter(Boolean).length`: the number of maximal
nonempty whitespace-free runs. -/
def countWords (l : JStr) : Nat :=
  (l.foldl
    (fun (a : Nat × Bool) c =>
      if c.isWhitespace then (a.1, false)
      else if a.2 then a else (a.1 + 1, true))
    (0, false)).1

/-- First attribute value with the given name, mirroring cheerio `.attr`. -/
def attrOf (name : JStr) (e : Element) : Option JStr :=
  (e.attrs.find? (fun p => p.1 = name)).map Prod.snd

/-- Whether an element carries the given attribute (any value). -/
def hasAttr (name : JStr) (e : Element) : Bool :=
  e.attrs.any (fun p => p.1 = name)

/-- Concatenated text of every element with the given tag, mirroring
cheerio `$(tag).text()` on the flattened document. -/
def textOfAll (tag : JStr) (doc : Html) : JStr :=
  (doc.filter (fun e => e.tag = tag)).foldl (fun acc e => acc ++ e.text) []

/-- Text of the first element with the given tag (`$(tag).first().text()`),
empty when absent. -/
def textOfFirst (tag : JStr) (doc : Html) : JStr :=
  ((doc.find? (fun e => e.tag = tag)).map Element.text).getD []

/-- `analyzePage` (route.ts lines 123-196): fetch one URL and build its
`SeoData` record.  A rejected fetch is caught and yields the default record
with `statusCode = 0`; non-2xx and non-HTML responses yield the default
record with the actual status; otherwise the metadata is extracted from the
body. -/
def analyzePage (net : JStr → FetchResult) (url : JStr) : SeoData :=
  match net url with
  | .failure => emptySeoData url 0
  | .response status contentType doc =>
    if ¬ responseOk status then emptySeoData url status
    else if ¬ jsIncludes (lit "text/html") contentType then emptySeoData url status
    else
      { url := url
        statusCode := status
        title := jsTrim (textOfAll (lit "title") doc)
        metaDescription :=
          ((doc.find? (fun e => e.tag = lit "meta" ∧
              attrOf (lit "name") e = some (lit "description"))).bind
            (attrOf (lit "content"))).getD []
        canonical :=
          ((doc.find? (fun e => e.tag = lit "link" ∧
              attrOf (lit "rel") e = some (lit "canonical"))).bind
            (attrOf (lit "href"))).getD []
        h1 := jsTrim (textOfFirst (lit "h1") doc)
        h2Count := doc.countP (fun e => e.tag = lit "h2")
        imgCount := doc.countP (fun e => e.tag = lit "img")
        imgWithAlt := doc.countP (fun e => e.tag = lit "img" ∧ hasAttr (lit "alt") e)
        wordCount := countWords (jsTrim (textOfAll (lit "body") doc)) }

/-- The deduplicating collection of normalized links (`links` is a JS `Set`;
`Array.from` returns insertion order). -/
def collectLinks (baseUrl pageUrl : JStr) (hrefs : List JStr) : List JStr :=
  hrefs.foldl
    (fun links href =>
      match normalizeHref baseUrl pageUrl href with
      | some v => if v ∈ links then links else links ++ [v]
      | none => links)
    []

/-- `extractUrls` (route.ts lines 198-278): re-fetch the page, and when the
response is 2xx HTML, run every `a[href]` through the normalizer, collecting
the same-host survivors.  Any failure yields `[]`. -/
def extractUrls (net : JStr → FetchResult) (url baseUrl : JStr) : List JStr :=
  match net url with
  | .failure => []
  | .response status contentType doc =>
    if ¬ responseOk status then []
    else if ¬ jsIncludes (lit "text/html") contentType then []
    else
      collectLinks baseUrl url
        (doc.filterMap (fun e => if e.tag = lit "a" then attrOf (lit "href") e else none))

/-- The crawl budget (route.ts line 19). -/
def MAX_URLS : Nat := 500

/-- An event written to the stream: `{"type":"progress"}` or
`{"type":"result"}`. -/
inductive Event where
  | progress (value : Nat)
  | result (data : SeoData)
deriving DecidableEq, Repr

/-- `Math.round((visitedSize / MAX_URLS) * 100)` (route.ts line 75), as exact
rational rounding: `visitedSize * 100 / MAX_URLS` has fractional part a
multiple of `1/5`, never `1/2`, so round-to-nearest is unambiguous and the
double-precision computation agrees with it for every `visitedSize ≤ MAX_URLS`. -/
def progressValue (visitedSize : Nat) : Nat :=
  (visitedSize * 100 * 2 + MAX_URLS) / (MAX_URLS * 2)

/-- Everything one loop iteration produces for a freshly visited URL:
the record, the two events written (progress first, then result), whether
link discovery (`extractUrls`) was invoked, the discovered links, and the
URLs fetched over the network this iteration, in order. -/
structure StepOut where
  data : SeoData
  events : List Event
  resolverRan : Bool
  discovered : List JStr
  fetches : List JStr
deriving DecidableEq

/-- The body of one loop iteration of `analyzeWebsite` for a URL not yet
visited (route.ts lines 71-99), with `visitedSize` the size of the visited
set after adding this URL.  `analyzePage` performs one fetch; `extractUrls`
is invoked — performing a second fetch of the same URL — exactly when the
record's `statusCode` is 200. -/
def visitStep (net : JStr → FetchResult) (baseUrl url : JStr) (visitedSize : Nat) :
    StepOut :=
  let data := analyzePage net url
  let ran := data.statusCode == 200
  { data := data
    events := [.progress (progressValue visitedSize), .result data]
    resolverRan := ran
    discovered := if ran then extractUrls net url baseUrl else []
    fetches := url :: (if ran then [url] else []) }

/-- The enqueue filter of route.ts lines 94-98: push each discovered URL not
visited, not already queued, and only while the queue plus visited sizes are
below the budget. -/
def enqueueNew (visited queue : List JStr) (newUrls : List JStr) : List JStr :=
  newUrls.foldl
    (fun q u =>
      if u ∉ visited ∧ u ∉ q ∧ q.length + visited.length < MAX_URLS then q ++ [u] else q)
    queue

/-- The final state of a crawl.  `completed = false` marks fuel exhaustion;
`crawlFuel` is large enough that `analyzeWebsite` never hits it. -/
structure CrawlResult where
  queue : List JStr
  visited : List JStr
  results : List SeoData
  events : List Event
  completed : Bool
deriving DecidableEq

/-- The `while` loop of `analyzeWebsite` (route.ts lines 62-116), as a
fuel-indexed step function.  On exit (queue empty or budget reached) the
final `progress:100` event is appended and the stream is closed. -/
def crawlGo (net : JStr → FetchResult) (baseUrl : JStr) :
    Nat → List JStr → List JStr → List SeoData → List Event → CrawlResult
  | 0, q, v, rs, es => ⟨q, v, rs, es, false⟩
  | fuel + 1, q, v, rs, es =>
    match q with
    | [] => ⟨[], v, rs, es ++ [.progress 100], true⟩
    | url :: q' =>
      if v.length < MAX_URLS then
        if url ∈ v then crawlGo net baseUrl fuel q' v rs es
        else
          let v' := url :: v
          let out := visitStep net baseUrl url v'.length
          crawlGo net baseUrl fuel (enqueueNew v' q' out.discovered) v'
            (rs ++ [out.data]) (es ++ out.events)
      else ⟨url :: q', v, rs, es ++ [.progress 100], true⟩

/-- Fuel bound: strictly more than the measure of the initial state. -/
def crawlFuel : Nat := MAX_URLS * (MAX_URLS + 1) + 2

/-- `analyzeWebsite` (route.ts lines 54-121): run the loop from the seeded
state. -/
def analyzeWebsite (net : JStr → FetchResult) (baseUrl : JStr) : CrawlResult :=
  crawlGo net baseUrl crawlFuel [baseUrl] [] [] []

/-- The response of the `GET` handler: a 400 JSON error, or the event
stream produced by the background crawl. -/
inductive GetResponse where
  | badRequest
  | stream (r : CrawlResult)
deriving DecidableEq

/-- The `GET` handler (route.ts lines 21-52): reject a missing (or empty —
falsy) `domain` parameter with a 400 before any stream exists; otherwise
prepend `https://` when the domain does not start with `http`, and crawl. -/
def GET (net : JStr → FetchResult) (domain : Option JStr) : GetResponse :=
  match domain with
  | none => .badRequest
  | some d =>
    if d = [] then .badRequest
    else .stream (analyzeWebsite net (if (lit "http").isPrefixOf d then d else lit "https://" ++ d))

/-- The events visible to the caller of `GET`: none at all for a 400. -/
def eventsOf : GetResponse → List Event
  | .badRequest => []
  | .stream r => r.events

/-- A network on which every fetch rejects: models both a fully unreachable
host and an unparseable URL handed to `fetch`. -/
def netFail : JStr → FetchResult := fun _ => .failure

/-- A network answering every URL with the same response. -/
def constNet (r : FetchResult) : JStr → FetchResult := fun _ => r

/-- A one-element document holding a single same-host link. -/
def aboutPage : Html := [⟨lit "a", [(lit "href", lit "/about")], []⟩]

/-- The trailing-slash rule as the spec words it (section 4.1): strip a
trailing `/` unless the STRIPPED form equals the crawl seed itself.  Stated
here only to be compared against `stripTrailingSlash`, the rule the source
actually implements. -/
def stripTrailingSlashSpec (seed s : JStr) : JStr :=
  if s.getLast? = some '/' ∧ s.dropLast ≠ seed then s.dropLast else s

/-! ### List helper lemmas -/

lemma takeWhile_append_all {p : Char → Bool} {a : JStr} (b : JStr)
    (h : ∀ c ∈ a, p c = true) : (a ++ b).takeWhile p = a ++ b.takeWhile p := by
  induction a with
  | nil => simp
  | cons x xs ih =>
    have hx : p x = true := h x (List.mem_cons_self _ _)
    simp only [List.cons_append, List.takeWhile_cons_of_pos hx]
    rw [ih (fun c hc => h c (List.mem_cons_of_mem _ hc))]

lemma dropWhile_append_all {p : Char → Bool} {a : JStr} (b : JStr)
    (h : ∀ c ∈ a, p c = true) : (a ++ b).dropWhile p = b.dropWhile p := by
  induction a with
  | nil => simp
  | cons x xs ih =>
    have hx : p x = true := h x (List.mem_cons_self _ _)
    simp only [List.cons_append, List.dropWhile_cons_of_pos hx]
    exact ih (fun c hc => h c (List.mem_cons_of_mem _ hc))

lemma takeWhile_eq_self_of_all {p : Char → Bool} {l : JStr}
    (h : ∀ c ∈ l, p c = true) : l.takeWhile p = l := by
  have := takeWhile_append_all (p := p) (a := l) [] h
  simpa using this

lemma dropWhile_eq_cons_head {p : Char → Bool} :
    ∀ {l : JStr} {d : Char} {rest : JStr}, l.dropWhile p = d :: rest → p d = false := by
  intro l
  induction l with
  | nil => intro d rest h; simp [List.dropWhile] at h
  | cons x xs ih =>
    intro d rest h
    by_cases hx : p x = true
    · rw [List.dropWhile_cons_of_pos hx] at h; exact ih h
    · rw [List.dropWhile_cons_of_neg hx] at h
      cases h; simpa using hx

lemma splitFirst_eq_some {c : Char} :
    ∀ {l a b : JStr}, splitFirst c l = some (a, b) → l = a ++ c :: b ∧ c ∉ a := by
  intro l
  induction l with
  | nil => intro a b h; simp [splitFirst] at h
  | cons x xs ih =>
    intro a b h
    by_cases hx : x = c
    · subst hx
      simp [splitFirst] at h
      obtain ⟨ha, hb⟩ := h
      subst ha; subst hb; simp
    · simp only [splitFirst, if_neg hx, Option.map_eq_some'] at h
      obtain ⟨⟨a', b'⟩, hsf, heq⟩ := h
      obtain ⟨heq1, heq2⟩ := Prod.mk.injEq .. ▸ heq
      obtain ⟨hl, hmem⟩ := ih hsf
      subst heq1; subst heq2
      subst hl
      refine ⟨by simp, ?_⟩
      intro hc
      rcases List.mem_cons.mp hc with h1 | h1
      · exact hx h1.symm
      · exact hmem h1

lemma splitFirst_append {c : Char} {a : JStr} (hc : c ∉ a) (b : JStr) :
    splitFirst c (a ++ c :: b) = some (a, b) := by
  induction a with
  | nil => simp [splitFirst]
  | cons x xs ih =>
    have hx : ¬ x = c := fun h => hc (h ▸ List.mem_cons_self _ _)
    have ih' := ih (fun h => hc (List.mem_cons_of_mem _ h))
    simp only [List.cons_append, splitFirst, List.append_eq, if_neg hx, ih', Option.map_some']

/-! ### parseURL structure lemmas -/

/-- The shape of a string accepted by `parseURL`, with the fields it yields. -/
lemma parseURL_eq_some {s : JStr} {p : URLParts} (h : parseURL s = some p) :
    ∃ scheme hostRaw after : JStr,
      s = scheme ++ ':' :: '/' :: '/' :: (hostRaw ++ after) ∧
      scheme ≠ [] ∧ (∀ c ∈ scheme, isSchemeChar c = true) ∧
      hostRaw ≠ [] ∧ (∀ c ∈ hostRaw, isHostStop c = false) ∧
      (after = [] ∨ ∃ d rest, after = d :: rest ∧ isHostStop d = true) ∧
      p.protocol = scheme.map Char.toLower ++ [':'] ∧
      p.host = hostRaw.map Char.toLower := by
  unfold parseURL at h
  rcases hsf : splitFirst ':' s with _ | ⟨scheme, rest⟩ <;> rw [hsf] at h <;>
    dsimp only at h
  · exact absurd h (by simp)
  obtain ⟨hs, hnotin⟩ := splitFirst_eq_some hsf
  by_cases hguard : (decide (scheme = []) || !(scheme.all isSchemeChar)) = true
  · rw [if_pos hguard] at h; exact absurd h (by simp)
  rw [if_neg hguard] at h
  simp only [Bool.or_eq_true, Bool.not_eq_true', decide_eq_true_eq, not_or,
    Bool.not_eq_false] at hguard
  rcases rest with _ | ⟨d1, rest1⟩
  · exact absurd h (by simp)
  rcases rest1 with _ | ⟨d2, rest'⟩
  · exact absurd h (by simp)
  dsimp only at h
  by_cases hdd : d1 = '/' ∧ d2 = '/'
  swap
  · rw [if_neg hdd] at h; exact absurd h (by simp)
  rw [if_pos hdd] at h
  obtain ⟨hd1, hd2⟩ := hdd
  subst hd1; subst hd2
  set hostRaw := rest'.takeWhile (fun c => !isHostStop c) with hhr
  set after := rest'.dropWhile (fun c => !isHostStop c) with haf
  by_cases hhe : hostRaw = []
  · rw [if_pos hhe] at h; exact absurd h (by simp)
  rw [if_neg hhe] at h
  refine ⟨scheme, hostRaw, after, ?_, hguard.1, ?_, hhe, ?_, ?_, ?_, ?_⟩
  · rw [hs, hhr, haf, List.takeWhile_append_dropWhile]
  · intro c hc
    exact List.all_eq_true.mp hguard.2 c hc
  · intro c hc
    have := List.mem_takeWhile_imp (hhr ▸ hc)
    simpa using this
  · rcases hafs : after with _ | ⟨d, rest''⟩
    · exact Or.inl rfl
    · refine Or.inr ⟨d, rest'', rfl, ?_⟩
      have := dropWhile_eq_cons_head (haf.symm.trans hafs)
      simpa using this
  · have := congrArg URLParts.protocol (Option.some.inj h)
    simpa using this.symm
  · have := congrArg URLParts.host (Option.some.inj h)
    simpa using this.symm

/-- Rebuilding: a string of the accepted shape parses, with protocol and host
determined by its scheme and authority. -/
lemma parseURL_build {scheme hostRaw after : JStr}
    (h1 : scheme ≠ []) (h2 : ∀ c ∈ scheme, isSchemeChar c = true)
    (h3 : hostRaw ≠ []) (h4 : ∀ c ∈ hostRaw, isHostStop c = false)
    (h5 : after = [] ∨ ∃ d rest, after = d :: rest ∧ isHostStop d = true) :
    ∃ pn, parseURL (scheme ++ ':' :: '/' :: '/' :: (hostRaw ++ after)) =
      some ⟨scheme.map Char.toLower ++ [':'], hostRaw.map Char.toLower, pn⟩ := by
  have hnotin : ':' ∉ scheme := by
    intro hmem
    have := h2 ':' hmem
    simp [isSchemeChar] at this
  have hguard : ¬ (decide (scheme = []) || !(scheme.all isSchemeChar)) = true := by
    simp only [Bool.or_eq_true, Bool.not_eq_true', decide_eq_true_eq, not_or, Bool.not_eq_false]
    exact ⟨h1, List.all_eq_true.mpr h2⟩
  have htake : (hostRaw ++ after).takeWhile (fun c => !isHostStop c) = hostRaw := by
    rw [takeWhile_append_all after (fun c hc => by simp [h4 c hc])]
    rcases h5 with h5 | ⟨d, rest, hd, hstop⟩
    · simp [h5]
    · subst hd
      rw [List.takeWhile_cons_of_neg (by simp [hstop]), List.append_nil]
  have hdrop : (hostRaw ++ after).dropWhile (fun c => !isHostStop c) = after := by
    rw [dropWhile_append_all after (fun c hc => by simp [h4 c hc])]
    rcases h5 with h5 | ⟨d, rest, hd, hstop⟩
    · simp [h5]
    · subst hd
      rw [List.dropWhile_cons_of_neg (by simp [hstop])]
  unfold parseURL
  rw [splitFirst_append hnotin]
  dsimp only
  rw [if_neg hguard, if_pos ⟨rfl, rfl⟩]
  rw [htake, hdrop, if_neg h3]
  exact ⟨_, rfl⟩

/-- Reassociation of the accepted URL shape. -/
lemma urlShape_assoc (scheme hostRaw after : JStr) :
    scheme ++ ':' :: '/' :: '/' :: (hostRaw ++ after) =
    (scheme ++ [':', '/', '/'] ++ hostRaw) ++ after := by
  simp

/-- Stripping at a `#` or `?` (any character that stops a host but is not a
slash and not a scheme character) preserves parse success, the protocol and
the host: such a character can only occur past the authority. -/
lemma parseURL_takeWhile_stop {c : Char} (hsch : isSchemeChar c = false)
    (hstop : isHostStop c = true) (hslash : c ≠ '/')
    {s : JStr} {p : URLParts} (h : parseURL s = some p) :
    ∃ p', parseURL (s.takeWhile (fun x => x ≠ c)) = some p' ∧
      p'.protocol = p.protocol ∧ p'.host = p.host := by
  obtain ⟨scheme, hostRaw, after, hs, h1, h2, h3, h4, h5, hp, hh⟩ := parseURL_eq_some h
  have hcolon : ¬ ':' = c := by
    intro hc; rw [← hc] at hstop; simp [isHostStop] at hstop
  have hsltr : ¬ '/' = c := fun hc => hslash hc.symm
  have hA : ∀ x ∈ scheme, (fun x => decide ¬ x = c) x = true := by
    intro x hx
    simp only [decide_eq_true_eq]
    intro hxc
    rw [hxc] at hx
    exact absurd (h2 c hx) (by simp [hsch])
  have hB : ∀ x ∈ hostRaw, (fun x => decide ¬ x = c) x = true := by
    intro x hx
    simp only [decide_eq_true_eq]
    intro hxc
    rw [hxc] at hx
    exact absurd (h4 c hx) (by simp [hstop])
  have htw : s.takeWhile (fun x => ¬ x = c) =
      scheme ++ ':' :: '/' :: '/' :: (hostRaw ++ after.takeWhile (fun x => ¬ x = c)) := by
    rw [hs]
    rw [takeWhile_append_all _ hA]
    rw [List.takeWhile_cons_of_pos (by simpa using hcolon),
      List.takeWhile_cons_of_pos (by simpa using hsltr),
      List.takeWhile_cons_of_pos (by simpa using hsltr)]
    rw [takeWhile_append_all _ hB]
  have h5' : after.takeWhile (fun x => ¬ x = c) = [] ∨
      ∃ d rest, after.takeWhile (fun x => ¬ x = c) = d :: rest ∧ isHostStop d = true := by
    rcases h5 with h5 | ⟨d, rest, hd, hds⟩
    · left; simp [h5]
    · subst hd
      by_cases hdc : d = c
      · left; rw [List.takeWhile_cons_of_neg (by simp [hdc])]
      · right
        rw [List.takeWhile_cons_of_pos (by simpa using hdc)]
        exact ⟨d, _, rfl, hds⟩
  obtain ⟨pn, hbuild⟩ := parseURL_build h1 h2 h3 h4 h5'
  refine ⟨⟨scheme.map Char.toLower ++ [':'], hostRaw.map Char.toLower, pn⟩, ?_, ?_, ?_⟩
  · rw [htw]; exact hbuild
  · simp [hp]
  · simp [hh]

/-- Dropping a trailing `/` preserves parse success, the protocol and the
host: a parsed URL cannot end with `/` inside its authority. -/
lemma parseURL_dropLast {s : JStr} {p : URLParts} (h : parseURL s = some p)
    (hl : s.getLast? = some '/') :
    ∃ p', parseURL s.dropLast = some p' ∧
      p'.protocol = p.protocol ∧ p'.host = p.host := by
  obtain ⟨scheme, hostRaw, after, hs, h1, h2, h3, h4, h5, hp, hh⟩ := parseURL_eq_some h
  rcases hafter : after with _ | ⟨d, rest⟩
  · exfalso
    subst hafter
    rcases List.eq_nil_or_concat hostRaw with hhr | ⟨hr', x, hhr⟩
    · exact h3 hhr
    · have hsx : s = (scheme ++ [':', '/', '/'] ++ hr') ++ [x] := by
        rw [hs, hhr]; simp
      rw [hsx, List.getLast?_concat] at hl
      have hx : x = '/' := by simpa using hl
      have := h4 x (by rw [hhr]; simp)
      rw [hx] at this
      simp [isHostStop] at this
  · have hne : after ≠ [] := by rw [hafter]; simp
    have hdl : s.dropLast = scheme ++ ':' :: '/' :: '/' :: (hostRaw ++ after.dropLast) := by
      rw [hs, urlShape_assoc, List.dropLast_append_of_ne_nil _ hne, urlShape_assoc]
    have h5' : after.dropLast = [] ∨
        ∃ d' rest', after.dropLast = d' :: rest' ∧ isHostStop d' = true := by
      rcases h5 with h5 | ⟨d', rest', hd, hds⟩
    
      · left; simp [h5]
      · rcases hrest : rest' with _ | ⟨r, rs⟩
        · left
          rw [hd, hrest]
          rfl
        · right
          rw [hd, hrest]
          exact ⟨d', _, rfl, hds⟩
    obtain ⟨pn, hbuild⟩ := parseURL_build h1 h2 h3 h4 h5'
    refine ⟨⟨scheme.map Char.toLower ++ [':'], hostRaw.map Char.toLower, pn⟩, ?_, ?_, ?_⟩
    · rw [hdl]; exact hbuild
    · simp [hp]
    · simp [hh]

lemma mem_of_mem_takeWhile {p : Char → Bool} {l : JStr} {c : Char}
    (h : c ∈ l.takeWhile p) : c ∈ l :=
  (List.takeWhile_sublist p).subset h

/-- The stripping step `split("#")[0].split("?")[0]` keeps the URL parseable
with the same protocol and host, and its output contains neither `#` nor `?`. -/
lemma stripFragQuery_parse {s : JStr} {p : URLParts} (h : parseURL s = some p) :
    ∃ p', parseURL (stripFragQuery s) = some p' ∧
      p'.protocol = p.protocol ∧ p'.host = p.host ∧
      '#' ∉ stripFragQuery s ∧ '?' ∉ stripFragQuery s := by
  obtain ⟨p1, hp1, hpr1, hh1⟩ :=
    parseURL_takeWhile_stop (c := '#') (by decide) (by decide) (by decide) h
  obtain ⟨p2, hp2, hpr2, hh2⟩ :=
    parseURL_takeWhile_stop (c := '?') (by decide) (by decide) (by decide) hp1
  refine ⟨p2, hp2, by rw [hpr2, hpr1], by rw [hh2, hh1], ?_, ?_⟩
  · intro hmem
    have hmem' := mem_of_mem_takeWhile hmem
    have := List.mem_takeWhile_imp hmem'
    simp at this
  · intro hmem
    have := List.mem_takeWhile_imp hmem
    simp at this

/-- Every link surviving `preNormalize` parses, with the same (lowercased)
host as the seed URL, and is free of `#` and `?`. -/
lemma preNormalize_parse {b u href s1 : JStr} (h : preNormalize b u href = some s1) :
    ∃ p1 bp, parseURL s1 = some p1 ∧ parseURL b = some bp ∧ p1.host = bp.host ∧
      '#' ∉ s1 ∧ '?' ∉ s1 := by
  unfold preNormalize at h
  by_cases he : href = []
  · rw [if_pos he] at h; exact absurd h (by simp)
  rw [if_neg he] at h
  rcases hres : resolveHref b u href with _ | fullUrl <;> rw [hres] at h <;> dsimp only at h
  · exact absurd h (by simp)
  rcases hpu : parseURL fullUrl with _ | up <;>
    rcases hpb : parseURL b with _ | bp <;>
      rw [hpu, hpb] at h <;> dsimp only at h
  · exact absurd h (by simp)
  · exact absurd h (by simp)
  · exact absurd h (by simp)
  by_cases hhost : up.host = bp.host
  swap
  · rw [if_neg hhost] at h; exact absurd h (by simp)
  rw [if_pos hhost] at h
  obtain ⟨hs1⟩ := h
  obtain ⟨p', hp', hpr', hh', hnh, hnq⟩ := stripFragQuery_parse hpu
  exact ⟨p', bp, hp', rfl, by rw [hh', hhost], hnh, hnq⟩

/-- Every link surviving the full normalization parses, with the same host as
the seed URL, and is free of `#` and `?`. -/
lemma normalizeHref_parse {b u href v : JStr} (h : normalizeHref b u href = some v) :
    ∃ p1 bp, parseURL v = some p1 ∧ parseURL b = some bp ∧ p1.host = bp.host ∧
      '#' ∉ v ∧ '?' ∉ v := by
  unfold normalizeHref at h
  rcases hpre : preNormalize b u href with _ | s1 <;> rw [hpre] at h
  · exact absurd h (by simp)
  obtain ⟨p1, bp, hp1, hpb, hhost, hnh, hnq⟩ := preNormalize_parse hpre
  simp only [Option.map_some', Option.some.injEq] at h
  rw [← h]
  unfold stripTrailingSlash
  by_cases hcond : s1.getLast? = some '/' ∧ s1 ≠ b
  · rw [if_pos hcond]
    obtain ⟨p', hp', _, hh'⟩ := parseURL_dropLast hp1 hcond.1
    refine ⟨p', bp, hp', hpb, by rw [hh', hhost], ?_, ?_⟩
    · intro hmem; exact hnh ((List.dropLast_sublist s1).subset hmem)
    · intro hmem; exact hnq ((List.dropLast_sublist s1).subset hmem)
  · rw [if_neg hcond]
    exact ⟨p1, bp, hp1, hpb, hhost, hnh, hnq⟩

/-- Every member of `collectLinks` is the output of `normalizeHref` on some
collected href. -/
lemma mem_collectLinks {b u : JStr} {hrefs : List JStr} {v : JStr}
    (h : v ∈ collectLinks b u hrefs) :
    ∃ href ∈ hrefs, normalizeHref b u href = some v := by
  unfold collectLinks at h
  suffices H : ∀ (hs : List JStr) (acc : List JStr),
      v ∈ hs.foldl (fun links href =>
        match normalizeHref b u href with
        | some w => if w ∈ links then links else links ++ [w]
        | none => links) acc →
      v ∈ acc ∨ ∃ href ∈ hs, normalizeHref b u href = some v by
    rcases H hrefs [] h with h' | h'
    · simp at h'
    · exact h'
  intro hs
  induction hs with
  | nil => intro acc h'; exact Or.inl h'
  | cons x xs ih =>
    intro acc h'
    simp only [List.foldl_cons] at h'
    rcases hnx : normalizeHref b u x with _ | w <;> rw [hnx] at h'
    · rcases ih _ h' with h'' | ⟨href, hm, hn⟩
      · exact Or.inl h''
      · exact Or.inr ⟨href, List.mem_cons_of_mem _ hm, hn⟩
    · have hacc : v ∈ (if w ∈ acc then acc else acc ++ [w]) →
          v ∈ acc ∨ v = w := by
        intro hv
        by_cases hw : w ∈ acc
        · rw [if_pos hw] at hv; exact Or.inl hv
        · rw [if_neg hw] at hv
          rcases List.mem_append.mp hv with hv' | hv'
          · exact Or.inl hv'
          · exact Or.inr (by simpa using hv')
      rcases ih _ h' with h'' | ⟨href, hm, hn⟩
      · rcases hacc h'' with h3 | h3
        · exact Or.inl h3
        · exact Or.inr ⟨x, List.mem_cons_self _ _, by rw [hnx, h3]⟩
      · exact Or.inr ⟨href, List.mem_cons_of_mem _ hm, hn⟩

/-- Every member of `extractUrls` is a `normalizeHref` output. -/
lemma mem_extractUrls {net : JStr → FetchResult} {url b v : JStr}
    (h : v ∈ extractUrls net url b) :
    ∃ href, normalizeHref b url href = some v := by
  unfold extractUrls at h
  rcases hnu : net url with _ | ⟨status, ct, doc⟩ <;> rw [hnu] at h <;> dsimp only at h
  · simp at h
  · by_cases h1 : responseOk status = true
    swap
    · rw [if_pos h1] at h; simp at h
    rw [if_neg (not_not_intro h1)] at h
    by_cases h2 : jsIncludes (lit "text/html") ct = true
    swap
    · rw [if_pos h2] at h; simp at h
    rw [if_neg (not_not_intro h2)] at h
    obtain ⟨href, _, hn⟩ := mem_collectLinks h
    exact ⟨href, hn⟩

/-- C7: every link discovered on a visited page and passed to the frontier
has the same (case-insensitively compared) host as the seed URL: the parsed
host of each `extractUrls` output equals the parsed host of `baseUrl`, both
hosts being the WHATWG-lowercased authority. -/
theorem spec_C7 (net : JStr → FetchResult) (url baseUrl v : JStr)
    (h : v ∈ extractUrls net url baseUrl) :
    ∃ pv pb, parseURL v = some pv ∧ parseURL baseUrl = some pb ∧
      pv.host = pb.host := by
  obtain ⟨href, hn⟩ := mem_extractUrls h
  obtain ⟨p1, bp, hp1, hpb, hhost, _, _⟩ := normalizeHref_parse hn
  exact ⟨p1, bp, hp1, hpb, hhost⟩

/-- C7 witness: on a concrete page containing `<a href="/about">`, the
discovered link `http://e.com/about` indeed parses to the seed's host. -/
theorem spec_C7_witness :
    ∃ pv pb, parseURL (lit "http://e.com/about") = some pv ∧
      parseURL (lit "http://e.com") = some pb ∧ pv.host = pb.host :=
  spec_C7 (constNet (.response 200 (lit "text/html") aboutPage))
    (lit "http://e.com") (lit "http://e.com") (lit "http://e.com/about")
    (by decide)

/-! ### Preservation of the `"http"` string prefix through normalization -/

lemma http_prefix_scheme {scheme rest : JStr} (hns : ':' ∉ scheme)
    (hpre : lit "http" <+: scheme ++ ':' :: rest) : lit "http" <+: scheme := by
  have hlit : lit "http" = 'h' :: 't' :: 't' :: 'p' :: [] := rfl
  rw [hlit] at hpre ⊢
  rcases scheme with _ | ⟨a, s1⟩
  · rw [List.nil_append, List.cons_prefix_cons] at hpre
    exact absurd hpre.1 (by decide)
  rw [List.cons_append, List.cons_prefix_cons] at hpre
  obtain ⟨ha, hpre⟩ := hpre
  rcases s1 with _ | ⟨b, s2⟩
  · rw [List.nil_append, List.cons_prefix_cons] at hpre
    exact absurd hpre.1 (by decide)
  rw [List.cons_append, List.cons_prefix_cons] at hpre
  obtain ⟨hb, hpre⟩ := hpre
  rcases s2 with _ | ⟨c, s3⟩
  · rw [List.nil_append, List.cons_prefix_cons] at hpre
    exact absurd hpre.1 (by decide)
  rw [List.cons_append, List.cons_prefix_cons] at hpre
  obtain ⟨hc, hpre⟩ := hpre
  rcases s3 with _ | ⟨d, s4⟩
  · rw [List.nil_append, List.cons_prefix_cons] at hpre
    exact absurd hpre.1 (by decide)
  rw [List.cons_append, List.cons_prefix_cons] at hpre
  obtain ⟨hd, _⟩ := hpre
  subst ha; subst hb; subst hc; subst hd
  simp [List.cons_prefix_cons, List.nil_prefix]

lemma http_prefix_map_toLower {l : JStr} (h : lit "http" <+: l) :
    lit "http" <+: l.map Char.toLower := by
  obtain ⟨t, ht⟩ := h
  rw [← ht, List.map_append]
  have : (lit "http").map Char.toLower = lit "http" := rfl
  rw [this]
  exact List.prefix_append _ _

lemma http_prefix_protocol {b : JStr} {bp : URLParts} (hb : lit "http" <+: b)
    (h : parseURL b = some bp) : lit "http" <+: bp.protocol := by
  obtain ⟨scheme, hostRaw, after, hs, _, h2, _, _, _, hp, _⟩ := parseURL_eq_some h
  have hns : ':' ∉ scheme := by
    intro hmem
    have := h2 ':' hmem
    simp [isSchemeChar] at this
  rw [hs] at hb
  have hsch := http_prefix_scheme hns hb
  rw [hp]
  exact (http_prefix_map_toLower hsch).trans (List.prefix_append _ _)

lemma prefixExtendRight {a b : JStr} (x : JStr) (h : a <+: b) : a <+: b ++ x :=
  h.trans (List.prefix_append b x)

lemma http_prefix_resolveHref {b u href full : JStr}
    (hb : lit "http" <+: b) (hu : lit "http" <+: u)
    (h : resolveHref b u href = some full) : lit "http" <+: full := by
  unfold resolveHref at h
  by_cases hab : (lit "http").isPrefixOf href = true
  · rw [if_pos hab] at h
    cases h
    exact List.isPrefixOf_iff_prefix.mp hab
  rw [if_neg hab] at h
  by_cases hslash : href.head? = some '/'
  · rw [if_pos hslash] at h
    rcases hpb : parseURL b with _ | bp <;> rw [hpb] at h <;> dsimp only at h
    · exact absurd h (by simp)
    · obtain ⟨hfull⟩ := h
      have hproto := http_prefix_protocol hb hpb
      exact prefixExtendRight _ (prefixExtendRight _
        (prefixExtendRight _ hproto))
  rw [if_neg hslash] at h
  by_cases hcond : ¬ href.head? = some '#' ∧ ¬ (lit "javascript:").isPrefixOf href = true ∧
      ¬ (lit "mailto:").isPrefixOf href = true
  swap
  · rw [if_neg hcond] at h; exact absurd h (by simp)
  rw [if_pos hcond] at h
  rcases hpu : parseURL u with _ | up <;> rw [hpu] at h <;> dsimp only at h
  · exact absurd h (by simp)
  · obtain ⟨hfull⟩ := h
    have hproto := http_prefix_protocol hu hpu
    exact prefixExtendRight _ (prefixExtendRight _
      (prefixExtendRight _ (prefixExtendRight _ hproto)))

lemma http_prefix_takeWhile {s : JStr} {p : Char → Bool} (h : lit "http" <+: s)
    (hp : ∀ c ∈ lit "http", p c = true) : lit "http" <+: s.takeWhile p := by
  obtain ⟨t, ht⟩ := h
  rw [← ht, takeWhile_append_all _ hp]
  exact List.prefix_append _ _

lemma http_prefix_stripFragQuery {s : JStr} (h : lit "http" <+: s) :
    lit "http" <+: stripFragQuery s := by
  unfold stripFragQuery
  exact http_prefix_takeWhile (http_prefix_takeWhile h (by decide)) (by decide)

lemma http_prefix_dropLast {s : JStr} (h : lit "http" <+: s)
    (hl : s.getLast? = some '/') : lit "http" <+: s.dropLast := by
  obtain ⟨t, ht⟩ := h
  rcases hts : t with _ | ⟨x, xs⟩
  · rw [hts] at ht
    rw [← ht] at hl
    exact absurd hl (by decide)
  · have hne : t ≠ [] := by rw [hts]; simp
    rw [← ht, List.dropLast_append_of_ne_nil _ hne]
    exact List.prefix_append _ _

/-- Every output of the normalizer starts with the string `"http"`, provided
the seed and the referring page do (which holds for every URL a crawl ever
passes: `GET` prepends `https://` when needed, and inductively every visited
page comes from this very normalizer). -/
lemma http_prefix_normalizeHref {b u href v : JStr}
    (hb : lit "http" <+: b) (hu : lit "http" <+: u)
    (h : normalizeHref b u href = some v) : lit "http" <+: v := by
  unfold normalizeHref at h
  rcases hpre : preNormalize b u href with _ | s1 <;> rw [hpre] at h
  · exact absurd h (by simp)
  simp only [Option.map_some', Option.some.injEq] at h
  have hs1 : lit "http" <+: s1 := by
    unfold preNormalize at hpre
    by_cases he : href = []
    · rw [if_pos he] at hpre; exact absurd hpre (by simp)
    rw [if_neg he] at hpre
    rcases hres : resolveHref b u href with _ | fullUrl <;> rw [hres] at hpre <;>
      dsimp only at hpre
    · exact absurd hpre (by simp)
    rcases hpfu : parseURL fullUrl with _ | up <;>
      rcases hpb : parseURL b with _ | bp <;>
        rw [hpfu, hpb] at hpre <;> dsimp only at hpre
    · exact absurd hpre (by simp)
    · exact absurd hpre (by simp)
    · exact absurd hpre (by simp)
    by_cases hhost : up.host = bp.host
    swap
    · rw [if_neg hhost] at hpre; exact absurd hpre (by simp)
    rw [if_pos hhost] at hpre
    obtain ⟨hs1⟩ := hpre
    exact http_prefix_stripFragQuery (http_prefix_resolveHref hb hu hres)
  rw [← h]
  unfold stripTrailingSlash
  by_cases hcond : s1.getLast? = some '/' ∧ s1 ≠ b
  · rw [if_pos hcond]
    exact http_prefix_dropLast hs1 hcond.1
  · rw [if_neg hcond]
    exact hs1

/-- C8 counterexample: normalization is NOT idempotent on every reachable
URL shape.  The absolute same-host link `http://e.com/a//` (an `href` any
page may carry) normalizes to `http://e.com/a/` — still slash-terminated,
because only ONE trailing slash is stripped — and normalizing that output
again yields the strictly shorter `http://e.com/a`. -/
theorem spec_C8_cex :
    normalizeHref (lit "http://e.com") (lit "http://e.com") (lit "http://e.com/a//") =
      some (lit "http://e.com/a/") ∧
    normalizeHref (lit "http://e.com") (lit "http://e.com") (lit "http://e.com/a/") =
      some (lit "http://e.com/a") ∧
    lit "http://e.com/a" ≠ lit "http://e.com/a/" := by decide

/-- C8 (amended): normalization is idempotent on every normalized URL that
does not end in `/` — equivalently, whenever the first pass did not leave a
trailing slash behind (the seed URL itself may keep its slash) — provided
the seed and referring page start with `"http"`, as every URL in a crawl
does.  Re-normalizing such an output, from any referring page, returns it
unchanged. -/
theorem spec_C8 (b u u' href v : JStr)
    (hb : lit "http" <+: b) (hu : lit "http" <+: u)
    (h : normalizeHref b u href = some v)
    (hv : v = b ∨ v.getLast? ≠ some '/') :
    normalizeHref b u' v = some v := by
  have hhttp := http_prefix_normalizeHref hb hu h
  obtain ⟨pv, bp, hpv, hpb, hhost, hnh, hnq⟩ := normalizeHref_parse h
  have hvne : v ≠ [] := by
    obtain ⟨t, ht⟩ := hhttp
    rw [← ht]
    simp [lit]
  have hres : resolveHref b u' v = some v := by
    unfold resolveHref
    rw [if_pos (List.isPrefixOf_iff_prefix.mpr hhttp)]
  have hsfq : stripFragQuery v = v := by
    unfold stripFragQuery
    have h1 : v.takeWhile (fun c => c ≠ '#') = v := by
      refine takeWhile_eq_self_of_all (fun c hc => ?_)
      simp only [decide_eq_true_eq]
      rintro rfl
      exact hnh hc
    rw [h1]
    refine takeWhile_eq_self_of_all (fun c hc => ?_)
    simp only [decide_eq_true_eq]
    rintro rfl
    exact hnq hc
  have hsts : stripTrailingSlash b v = v := by
    unfold stripTrailingSlash
    rcases hv with hv | hv
    · rw [if_neg (fun hcon => hcon.2 hv)]
    · rw [if_neg (fun hcon => hv hcon.1)]
  unfold normalizeHref preNormalize
  rw [if_neg hvne, hres]
  dsimp only
  rw [hpv, hpb]
  dsimp only
  rw [if_pos hhost, hsfq]
  simp [hsts]

/-- C8 witness: the root-relative link `/about` on the seed page normalizes
to `http://e.com/about`, and re-normalizing that output returns it
unchanged. -/
theorem spec_C8_witness :
    normalizeHref (lit "http://e.com") (lit "http://e.com")
      (lit "http://e.com/about") = some (lit "http://e.com/about") :=
  spec_C8 (lit "http://e.com") (lit "http://e.com") (lit "http://e.com")
    (lit "/about") (lit "http://e.com/about")
    ⟨lit "://e.com", by decide⟩ ⟨lit "://e.com", by decide⟩
    (by decide) (Or.inr (by decide))

/-- C9 counterexample: the source keeps a trailing slash only when the URL
WITH the slash equals the seed, not — as the claim states — when the
STRIPPED form equals the seed.  The link `/` on seed `http://e.com`
resolves to `http://e.com/`, whose stripped form equals the seed; the claim
says the slash is kept, but the code strips it and yields `http://e.com`. -/
theorem spec_C9_cex :
    preNormalize (lit "http://e.com") (lit "http://e.com") (lit "/") =
      some (lit "http://e.com/") ∧
    stripTrailingSlashSpec (lit "http://e.com") (lit "http://e.com/") =
      lit "http://e.com/" ∧
    normalizeHref (lit "http://e.com") (lit "http://e.com") (lit "/") =
      some (lit "http://e.com") ∧
    lit "http://e.com" ≠ lit "http://e.com/" := by decide

/-- C9 (amended): for every discovered same-host URL ending in `/` (after
query/fragment stripping), normalization drops exactly one trailing slash
unless the URL — slash included — equals the seed URL itself, in which case
it is kept unchanged. -/
theorem spec_C9 (b u href s1 : JStr)
    (hpre : preNormalize b u href = some s1) (hl : s1.getLast? = some '/') :
    (s1 = b → normalizeHref b u href = some s1) ∧
    (s1 ≠ b → normalizeHref b u href = some s1.dropLast) := by
  unfold normalizeHref
  rw [hpre]
  simp only [Option.map_some']
  unfold stripTrailingSlash
  constructor
  · intro heq
    rw [if_neg (fun hcon => hcon.2 heq)]
  · intro hne
    rw [if_pos ⟨hl, hne⟩]

/-- C9 witness: with seed `http://e.com/` the link `/` resolves to the seed
itself and keeps its slash; with seed `http://e.com` the link `/a/` loses
its trailing slash. -/
theorem spec_C9_witness :
    normalizeHref (lit "http://e.com/") (lit "http://e.com/") (lit "/") =
      some (lit "http://e.com/") ∧
    normalizeHref (lit "http://e.com") (lit "http://e.com") (lit "/a/") =
      some (lit "http://e.com/a") :=
  ⟨(spec_C9 (lit "http://e.com/") (lit "http://e.com/") (lit "/")
      (lit "http://e.com/") (by decide) (by decide)).1 (by decide),
   (spec_C9 (lit "http://e.com") (lit "http://e.com") (lit "/a/")
      (lit "http://e.com/a/") (by decide) (by decide)).2 (by decide)⟩

/-- C10: every `PageRecord` built by `analyzePage` satisfies
`imgWithAlt ≤ imgCount` — the images carrying an `alt` attribute are a
subset of all images — and the failure/default records carry `0 ≤ 0`. -/
theorem spec_C10 (net : JStr → FetchResult) (url : JStr) :
    (analyzePage net url).imgWithAlt ≤ (analyzePage net url).imgCount := by
  unfold analyzePage
  rcases net url with _ | ⟨status, ct, doc⟩
  · simp [emptySeoData]
  · dsimp only
    by_cases h1 : responseOk status = true
    swap
    · rw [if_pos h1]; simp [emptySeoData]
    rw [if_neg (not_not_intro h1)]
    by_cases h2 : jsIncludes (lit "text/html") ct = true
    swap
    · rw [if_pos h2]; simp [emptySeoData]
    rw [if_neg (not_not_intro h2)]
    dsimp only
    refine List.countP_mono_left (fun e _ he => ?_)
    simp only [decide_eq_true_eq] at he ⊢
    exact he.1

/-! ### Crawl loop lemmas -/

lemma analyzePage_url (net : JStr → FetchResult) (url : JStr) :
    (analyzePage net url).url = url := by
  unfold analyzePage
  rcases net url with _ | ⟨status, ct, doc⟩
  · rfl
  · dsimp only
    split_ifs <;> rfl

lemma analyzePage_statusCode_response {net : JStr → FetchResult} {u : JStr}
    {s : Nat} {ct : JStr} {doc : Html} (h : net u = .response s ct doc) :
    (analyzePage net u).statusCode = s := by
  unfold analyzePage
  rw [h]
  dsimp only
  split_ifs <;> rfl

lemma analyzePage_failure {net : JStr → FetchResult} {u : JStr}
    (h : net u = .failure) : analyzePage net u = emptySeoData u 0 := by
  unfold analyzePage
  rw [h]

lemma visitStep_data (net : JStr → FetchResult) (b u : JStr) (n : Nat) :
    (visitStep net b u n).data = analyzePage net u := rfl

lemma visitStep_events (net : JStr → FetchResult) (b u : JStr) (n : Nat) :
    (visitStep net b u n).events =
      [.progress (progressValue n), .result (analyzePage net u)] := rfl

/-- `extractUrls` is invoked in an iteration exactly when the record's
status code — i.e. the status the fetch returned, or 0 on failure — is
exactly 200. -/
lemma visitStep_resolverRan_iff (net : JStr → FetchResult) (b u : JStr) (n : Nat) :
    (visitStep net b u n).resolverRan = true ↔
      ∃ ct body, net u = .response 200 ct body := by
  have hr : (visitStep net b u n).resolverRan =
      ((analyzePage net u).statusCode == 200) := rfl
  rw [hr]
  rcases hnu : net u with _ | ⟨s, ct, doc⟩
  · rw [analyzePage_failure hnu]
    constructor
    · intro h
      simp [emptySeoData] at h
    · rintro ⟨ct, body, hcon⟩
      exact FetchResult.noConfusion hcon
  · rw [analyzePage_statusCode_response hnu]
    constructor
    · intro h
      have hs : s = 200 := by simpa using h
      subst hs
      exact ⟨ct, doc, rfl⟩
    · rintro ⟨ct', body', hcon⟩
      obtain ⟨hs, _, _⟩ := FetchResult.response.inj hcon
      simp [hs]

lemma visitStep_fetches (net : JStr → FetchResult) (b u : JStr) (n : Nat) :
    (visitStep net b u n).fetches =
      if (analyzePage net u).statusCode == 200 then [u, u] else [u] := by
  unfold visitStep
  dsimp only
  by_cases h : (analyzePage net u).statusCode == 200
  · rw [if_pos h, if_pos h]
  · rw [if_neg h, if_neg h]

lemma enqueueNew_nil (v q : List JStr) : enqueueNew v q [] = q := rfl

lemma enqueueNew_cons (v q : List JStr) (x : JStr) (xs : List JStr) :
    enqueueNew v q (x :: xs) =
      enqueueNew v
        (if x ∉ v ∧ x ∉ q ∧ q.length + v.length < MAX_URLS then q ++ [x] else q) xs := rfl

/-- The queue after the enqueue loop is no longer than before, unless its
length together with the visited set stays within the budget. -/
lemma enqueueNew_length_le (v : List JStr) : ∀ (us q : List JStr),
    (enqueueNew v q us).length ≤ q.length ∨
    (enqueueNew v q us).length + v.length ≤ MAX_URLS := by
  intro us
  induction us with
  | nil => intro q; exact Or.inl (Nat.le_refl _)
  | cons x xs ih =>
    intro q
    rw [enqueueNew_cons]
    by_cases hc : x ∉ v ∧ x ∉ q ∧ q.length + v.length < MAX_URLS
    · rw [if_pos hc]
      have hlt := hc.2.2
      rcases ih (q ++ [x]) with h | h
      · right
        rw [List.length_append, List.length_singleton] at h
        omega
      · exact Or.inr h
    · rw [if_neg hc]
      exact ih q

/-- No URL is ever pushed once `queue.length + visited.size` has reached the
budget: the enqueue loop leaves the queue untouched. -/
lemma enqueueNew_full (v q us : List JStr) (h : MAX_URLS ≤ q.length + v.length) :
    enqueueNew v q us = q := by
  induction us with
  | nil => rfl
  | cons x xs ih =>
    rw [enqueueNew_cons, if_neg (fun hc => absurd hc.2.2 (by omega))]
    exact ih

/-- Everything in the queue after the enqueue loop was already queued or is
not in the visited set: a visited URL is never re-enqueued. -/
lemma mem_enqueueNew {v : List JStr} : ∀ {us q : List JStr} {u : JStr}
    (_ : u ∈ enqueueNew v q us), u ∈ q ∨ u ∉ v := by
  intro us
  induction us with
  | nil => intro q u h; exact Or.inl h
  | cons x xs ih =>
    intro q u h
    rw [enqueueNew_cons] at h
    by_cases hc : x ∉ v ∧ x ∉ q ∧ q.length + v.length < MAX_URLS
    · rw [if_pos hc] at h
      rcases ih h with h' | h'
      · rcases List.mem_append.mp h' with h'' | h''
        · exact Or.inl h''
        · right
          rw [List.mem_singleton.mp h'']
          exact hc.1
      · exact Or.inr h'
    · rw [if_neg hc] at h
      exact ih h

lemma crawlGo_zero (net : JStr → FetchResult) (b : JStr) (q v : List JStr)
    (rs : List SeoData) (es : List Event) :
    crawlGo net b 0 q v rs es = ⟨q, v, rs, es, false⟩ := rfl

lemma crawlGo_nil (net : JStr → FetchResult) (b : JStr) (fuel : Nat) (v : List JStr)
    (rs : List SeoData) (es : List Event) :
    crawlGo net b (fuel + 1) [] v rs es = ⟨[], v, rs, es ++ [.progress 100], true⟩ := rfl

lemma crawlGo_cons (net : JStr → FetchResult) (b : JStr) (fuel : Nat) (url : JStr)
    (q' v : List JStr) (rs : List SeoData) (es : List Event) :
    crawlGo net b (fuel + 1) (url :: q') v rs es =
      if v.length < MAX_URLS then
        if url ∈ v then crawlGo net b fuel q' v rs es
        else
          crawlGo net b fuel
            (enqueueNew (url :: v) q' (visitStep net b url (url :: v).length).discovered)
            (url :: v) (rs ++ [(visitStep net b url (url :: v).length).data])
            (es ++ (visitStep net b url (url :: v).length).events)
      else ⟨url :: q', v, rs, es ++ [.progress 100], true⟩ := rfl

/-- Termination and the final event: from any state whose measure is below
the fuel, the loop reaches its normal exit, and the last event on the
stream is the final `progress:100`. -/
lemma crawlGo_exit (net : JStr → FetchResult) (b : JStr) : ∀ (fuel : Nat)
    (q v : List JStr) (rs : List SeoData) (es : List Event),
    (500 - v.length) * 501 + q.length < fuel →
    (crawlGo net b fuel q v rs es).completed = true ∧
    (crawlGo net b fuel q v rs es).events.getLast? = some (.progress 100) := by
  intro fuel
  induction fuel with
  | zero => intro q v rs es h; exact absurd h (Nat.not_lt_zero _)
  | succ fuel ih =>
    intro q v rs es h
    rcases q with _ | ⟨url, q'⟩
    · rw [crawlGo_nil]
      exact ⟨rfl, List.getLast?_concat _⟩
    rw [crawlGo_cons]
    by_cases hv : v.length < MAX_URLS
    swap
    · rw [if_neg hv]
      exact ⟨rfl, List.getLast?_concat _⟩
    rw [if_pos hv]
    simp only [MAX_URLS] at hv
    rw [List.length_cons] at h
    by_cases hmem : url ∈ v
    · rw [if_pos hmem]
      exact ih q' v rs es (by omega)
    rw [if_neg hmem]
    apply ih
    have hb := enqueueNew_length_le (url :: v)
      (visitStep net b url (url :: v).length).discovered q'
    simp only [MAX_URLS, List.length_cons] at hb
    rw [List.length_cons]
    omega

/-- From any loop state within the budget, the visited set stays within the
budget forever. -/
lemma crawlGo_visited_le (net : JStr → FetchResult) (b : JStr) : ∀ (fuel : Nat)
    (q v : List JStr) (rs : List SeoData) (es : List Event),
    v.length ≤ MAX_URLS →
    (crawlGo net b fuel q v rs es).visited.length ≤ MAX_URLS := by
  intro fuel
  induction fuel with
  | zero => intro q v rs es h; rw [crawlGo_zero]; exact h
  | succ fuel ih =>
    intro q v rs es h
    rcases q with _ | ⟨url, q'⟩
    · rw [crawlGo_nil]; exact h
    rw [crawlGo_cons]
    by_cases hv : v.length < MAX_URLS
    swap
    · rw [if_neg hv]; exact h
    rw [if_pos hv]
    by_cases hmem : url ∈ v
    · rw [if_pos hmem]; exact ih q' v rs es h
    rw [if_neg hmem]
    exact ih _ _ _ _ (by rw [List.length_cons]; omega)

/-- Dedup invariants of the loop: the visited set stays duplicate-free, the
result records keep pairwise distinct URLs, and every result's URL is
visited. -/
lemma crawlGo_nodup (net : JStr → FetchResult) (b : JStr) : ∀ (fuel : Nat)
    (q v : List JStr) (rs : List SeoData) (es : List Event),
    v.Nodup → (rs.map SeoData.url).Nodup → (∀ r ∈ rs, r.url ∈ v) →
    (crawlGo net b fuel q v rs es).visited.Nodup ∧
    ((crawlGo net b fuel q v rs es).results.map SeoData.url).Nodup ∧
    ∀ r ∈ (crawlGo net b fuel q v rs es).results,
      r.url ∈ (crawlGo net b fuel q v rs es).visited := by
  intro fuel
  induction fuel with
  | zero => intro q v rs es h1 h2 h3; rw [crawlGo_zero]; exact ⟨h1, h2, h3⟩
  | succ fuel ih =>
    intro q v rs es h1 h2 h3
    rcases q with _ | ⟨url, q'⟩
    · rw [crawlGo_nil]; exact ⟨h1, h2, h3⟩
    rw [crawlGo_cons]
    by_cases hv : v.length < MAX_URLS
    swap
    · rw [if_neg hv]; exact ⟨h1, h2, h3⟩
    rw [if_pos hv]
    by_cases hmem : url ∈ v
    · rw [if_pos hmem]; exact ih q' v rs es h1 h2 h3
    rw [if_neg hmem]
    have hdata_url : ∀ n, (visitStep net b url n).data.url = url := fun n => by
      rw [visitStep_data, analyzePage_url]
    have hmap : (rs ++ [(visitStep net b url (url :: v).length).data]).map SeoData.url =
        rs.map SeoData.url ++ [url] := by
      rw [List.map_append]
      simp [hdata_url _]
    have hurl_notin : url ∉ rs.map SeoData.url := by
      intro hin
      obtain ⟨r, hr, hru⟩ := List.mem_map.mp hin
      exact hmem (hru ▸ h3 r hr)
    apply ih
    · exact List.nodup_cons.mpr ⟨hmem, h1⟩
    · rw [hmap]
      refine List.Nodup.append h2 (List.nodup_singleton _) ?_
      intro x hx hx'
      rw [List.mem_singleton.mp hx'] at hx
      exact hurl_notin hx
    · intro r hr
      rcases List.mem_append.mp hr with hr' | hr'
      · exact List.mem_cons_of_mem _ (h3 r hr')
      · rw [List.mem_singleton.mp hr', hdata_url _]
        exact List.mem_cons_self _ _

/-- C1: at every step of the orchestrator loop — i.e. from every loop state
whose visited set is within the budget, hence inductively at every state the
crawl ever reaches from its empty initial visited set — the number of
visited URLs stays at most `MAX_URLS = 500`; and the enqueue loop refuses
every discovered URL whenever `queue.length + visited.size` has reached the
budget, leaving the queue unchanged. -/
theorem spec_C1 (net : JStr → FetchResult) (b : JStr) (fuel : Nat)
    (q v : List JStr) (rs : List SeoData) (es : List Event)
    (h : v.length ≤ MAX_URLS) :
    (crawlGo net b fuel q v rs es).visited.length ≤ MAX_URLS ∧
    ∀ (v' q' us : List JStr), MAX_URLS ≤ q'.length + v'.length →
      enqueueNew v' q' us = q' :=
  ⟨crawlGo_visited_le net b fuel q v rs es h,
   fun v' q' us h' => enqueueNew_full v' q' us h'⟩

/-- C1 witness: a concrete one-page crawl stays within the budget, and with
500 URLs already visited the enqueue loop refuses a fresh URL. -/
theorem spec_C1_witness :
    (crawlGo netFail (lit "http://e.com") 5 [lit "http://e.com"] [] [] []).visited.length ≤
      MAX_URLS ∧
    enqueueNew (List.replicate 500 (lit "b")) [] [lit "c"] = [] :=
  ⟨(spec_C1 netFail (lit "http://e.com") 5 [lit "http://e.com"] [] [] []
      (by decide)).1,
   (spec_C1 netFail (lit "http://e.com") 5 [lit "http://e.com"] [] [] []
      (by decide)).2 (List.replicate 500 (lit "b")) [] [lit "c"] (by decide)⟩

/-- C2: in every crawl each URL enters the visited set at most once (the
visited list stays duplicate-free), no URL appears twice in the results
sequence (the result URLs are pairwise distinct), and a URL already in the
visited set is never enqueued onto the frontier: if a visited URL shows up
in the post-enqueue queue it was in the queue already. -/
theorem spec_C2 (net : JStr → FetchResult) (b : JStr) :
    (analyzeWebsite net b).visited.Nodup ∧
    ((analyzeWebsite net b).results.map SeoData.url).Nodup ∧
    ∀ (v q us : List JStr) (u : JStr), u ∈ v → u ∈ enqueueNew v q us → u ∈ q := by
  have h := crawlGo_nodup net b crawlFuel [b] [] [] []
    List.nodup_nil (by simp) (by simp)
  refine ⟨h.1, h.2.1, ?_⟩
  intro v q us u hv hm
  rcases mem_enqueueNew hm with h' | h'
  · exact h'
  · exact absurd hv h'

/-- C2 witness: concrete instantiation of the never-re-enqueued conjunct —
a visited URL found after the enqueue loop was in the queue already. -/
theorem spec_C2_witness : lit "a" ∈ ([lit "a"] : List JStr) :=
  (spec_C2 netFail (lit "http://e.com")).2.2 [lit "a"] [lit "a"] [lit "a"] (lit "a")
    (by decide) (by decide)

/-- C3 counterexample: an unparseable seed does NOT fail before events.  The
present (hence not 400-rejected) domain `ht!tp` gets `https://` prepended;
fetching the unparseable `https://ht!tp` rejects (modelled by `netFail`),
which `analyzePage` catches — so the stream still carries the initial
progress event and a `statusCode = 0` result before the final
`progress:100`, contradicting "the crawl fails before any progress or
result event is emitted". -/
theorem spec_C3_cex :
    eventsOf (GET netFail (some (lit "ht!tp"))) =
      [.progress 0, .result (emptySeoData (lit "https://ht!tp") 0), .progress 100] ∧
    eventsOf (GET netFail (some (lit "ht!tp"))) ≠ [] := by
  constructor
  · decide
  · decide

/-- C3 (amended): per-page fetch/parse failures are converted into a
`PageRecord` with `statusCode = 0` and never abort the orchestrator loop
(every crawl runs to its normal exit); only a missing or empty `domain`
parameter is fatal, rejected with a 400 before any event; an unparseable
seed is NOT fatal — its fetch rejection is handled like any per-page
transport failure. -/
theorem spec_C3 (net : JStr → FetchResult) (url b : JStr) :
    eventsOf (GET net none) = [] ∧
    eventsOf (GET net (some [])) = [] ∧
    (net url = .failure → analyzePage net url = emptySeoData url 0) ∧
    (analyzeWebsite net b).completed = true := by
  refine ⟨rfl, rfl, ?_, ?_⟩
  · intro h
    exact analyzePage_failure h
  · have h := crawlGo_exit net b crawlFuel [b] [] [] []
      (by simp only [crawlFuel, MAX_URLS, List.length_nil, List.length_cons]; omega)
    exact h.1

/-- C3 witness: the amended claim at the all-failing network. -/
theorem spec_C3_witness :
    eventsOf (GET netFail none) = [] ∧
    analyzePage netFail (lit "x") = emptySeoData (lit "x") 0 ∧
    (analyzeWebsite netFail (lit "x")).completed = true :=
  ⟨(spec_C3 netFail (lit "x") (lit "x")).1,
   (spec_C3 netFail (lit "x") (lit "x")).2.2.1 rfl,
   (spec_C3 netFail (lit "x") (lit "x")).2.2.2⟩

/-- C4: every crawl that starts runs to the loop's normal exit (the stream
is closed, `completed = true`) and the last event written on the stream is
the final `progress` event with value 100 — whatever the network returned
and whatever the last computed percentage was. -/
theorem spec_C4 (net : JStr → FetchResult) (baseUrl : JStr) :
    (analyzeWebsite net baseUrl).events.getLast? = some (.progress 100) ∧
    (analyzeWebsite net baseUrl).completed = true := by
  have h := crawlGo_exit net baseUrl crawlFuel [baseUrl] [] [] []
    (by simp only [crawlFuel, MAX_URLS, List.length_nil, List.length_cons]; omega)
  exact ⟨h.2, h.1⟩

/-- C5 counterexample: the orchestrator gates link discovery on
`statusCode === 200`, not on "HTTP 2xx".  A 201 response is a 2xx success
(`response.ok` holds, so the page IS analyzed as HTML), yet `extractUrls`
is not invoked for it. -/
theorem spec_C5_cex :
    (visitStep (constNet (.response 201 (lit "text/html") [])) (lit "http://e.com")
        (lit "http://e.com") 1).data.statusCode = 201 ∧
    responseOk 201 = true ∧
    (visitStep (constNet (.response 201 (lit "text/html") [])) (lit "http://e.com")
        (lit "http://e.com") 1).resolverRan = false := by
  refine ⟨by decide, by decide, by decide⟩

/-- C5 (amended): the Link Resolver (`extractUrls`) is invoked in a URL's
iteration exactly when that URL's fetch returned status 200 — transport
failures (status 0) and every other status, 2xx included, do not trigger
it; a 200 response with non-HTML content DOES get `extractUrls` invoked,
but the resolver itself re-checks the content type and discovers no
links. -/
theorem spec_C5 (net : JStr → FetchResult) (b u : JStr) (n : Nat) :
    ((visitStep net b u n).resolverRan = true ↔
      ∃ ct body, net u = .response 200 ct body) ∧
    (∀ s ct body, net u = .response s ct body →
      jsIncludes (lit "text/html") ct = false → extractUrls net u b = []) := by
  refine ⟨visitStep_resolverRan_iff net b u n, ?_⟩
  intro s ct body hnu hct
  unfold extractUrls
  rw [hnu]
  dsimp only
  by_cases h1 : responseOk s = true
  swap
  · rw [if_pos h1]
  · rw [if_neg (not_not_intro h1), if_pos (by rw [hct]; exact (by decide))]

/-- C5 witness: a 200 `image/png` response triggers the resolver but yields
no links. -/
theorem spec_C5_witness :
    (visitStep (constNet (.response 200 (lit "image/png") [])) (lit "http://e.com")
        (lit "http://e.com") 1).resolverRan = true ∧
    extractUrls (constNet (.response 200 (lit "image/png") [])) (lit "http://e.com")
        (lit "http://e.com") = [] :=
  ⟨(spec_C5 (constNet (.response 200 (lit "image/png") [])) (lit "http://e.com")
      (lit "http://e.com") 1).1.mpr ⟨lit "image/png", [], rfl⟩,
   (spec_C5 (constNet (.response 200 (lit "image/png") [])) (lit "http://e.com")
      (lit "http://e.com") 1).2 200 (lit "image/png") [] rfl (by decide)⟩

/-- C6 counterexample: an iteration on a 200 HTML page performs TWO fetches
of the same URL — one in `analyzePage` and a second one inside
`extractUrls`, which takes the URL, not the already-retrieved HTML — not
the single outbound GET the claim states. -/
theorem spec_C6_cex :
    (visitStep (constNet (.response 200 (lit "text/html") [])) (lit "http://e.com")
        (lit "http://e.com") 1).fetches =
      [lit "http://e.com", lit "http://e.com"] ∧
    (visitStep (constNet (.response 200 (lit "text/html") [])) (lit "http://e.com")
        (lit "http://e.com") 1).fetches.length = 2 := by
  refine ⟨by decide, by decide⟩

/-- C6 (amended): each loop iteration fetches its URL once in `analyzePage`,
plus a SECOND fetch of the same URL inside `extractUrls` whenever the fetch
returned status 200 (the case in which link discovery runs): link discovery
re-fetches the page instead of consuming the HTML already retrieved. -/
theorem spec_C6 (net : JStr → FetchResult) (b u : JStr) (n : Nat) :
    ((∃ ct body, net u = .response 200 ct body) →
      (visitStep net b u n).fetches = [u, u]) ∧
    ((∀ ct body, net u ≠ .response 200 ct body) →
      (visitStep net b u n).fetches = [u]) := by
  constructor
  · rintro ⟨ct, body, hnu⟩
    rw [visitStep_fetches, analyzePage_statusCode_response hnu]
    rfl
  · intro hne
    rw [visitStep_fetches]
    rcases hnu : net u with _ | ⟨s, ct, doc⟩
    · rw [analyzePage_failure hnu]
      rfl
    · rw [analyzePage_statusCode_response hnu]
      have hs : s ≠ 200 := by
        intro h
        exact hne ct doc (by rw [hnu, h])
      rw [if_neg (by simpa using hs)]

/-- C6 witness: two fetches on a 200 HTML page, one on a failing fetch. -/
theorem spec_C6_witness :
    (visitStep (constNet (.response 200 (lit "text/html") [])) (lit "http://e.com")
        (lit "http://e.com") 1).fetches = [lit "http://e.com", lit "http://e.com"] ∧
    (visitStep netFail (lit "http://e.com") (lit "http://e.com") 1).fetches =
      [lit "http://e.com"] :=
  ⟨(spec_C6 (constNet (.response 200 (lit "text/html") [])) (lit "http://e.com")
      (lit "http://e.com") 1).1 ⟨lit "text/html", [], rfl⟩,
   (spec_C6 netFail (lit "http://e.com") (lit "http://e.com") 1).2
      (fun _ _ h => FetchResult.noConfusion h)⟩
